import Mathlib

/-!
Verification development for the docx-review document core: the in-memory
document object model (runs, blocks, core properties), its mutation
operations, and the OOXML package codec (writer and reader) that the
repository exercises through its fixture-generation example.

The codec itself is not shipped in the repository source (the example
delegates to an external authoring library), so every codec definition
below is modelled from the specification. All definitions are executable.
-/

namespace DocxReview

/-- Modelled from the spec: the error taxonomy of section 7. The repository
ships no implementation of the core, only example usage; the taxonomy is
taken from the specification verbatim. -/
inductive DocxError where
  | invalidArgument
  | encodingError
  | malformedPackage
  | schemaViolation
  | unsupportedFeature
deriving Repr, DecidableEq

/-- Modelled from the spec: a Run is a contiguous span of text with a single
formatting state (text, bold, italic, optional RGB color). -/
structure Run where
  text : String
  bold : Bool := false
  italic : Bool := false
  color : Option String := none
deriving Repr, DecidableEq

/-- A run with the given text and all formatting unset, the state produced
by appending a run without formatting. -/
def plainRun (text : String) : Run :=
  { text := text }

/-- Modelled from the spec: a Block is polymorphic over Heading (with a
level) and Paragraph (with optional alignment); both carry a run sequence. -/
inductive Block where
  | heading (level : Nat) (runs : List Run)
  | paragraph (alignment : Option String) (runs : List Run)
deriving Repr, DecidableEq

/-- The run sequence of a block, common to both variants. -/
def Block.runs : Block → List Run
  | .heading _ rs => rs
  | .paragraph _ rs => rs

/-- The full text content of a block: its run sequence concatenated. -/
def Block.fullText (b : Block) : String :=
  b.runs.foldl (fun acc r => acc ++ r.text) ""

/-- Modelled from the spec: core document metadata; absent fields are unset,
not empty. Timestamps are kept in their serialized (fixed-precision) form. -/
structure CoreProperties where
  title : Option String := none
  author : Option String := none
  created : Option String := none
  modified : Option String := none
deriving Repr, DecidableEq

/-- Modelled from the spec: the Document root entity, core properties plus
an ordered block sequence. -/
structure Document where
  coreProperties : CoreProperties := {}
  blocks : List Block := []
deriving Repr, DecidableEq

/-- A Document is constructed empty. -/
def Document.empty : Document := {}

/-- Replace the element at an index, leaving the list unchanged when the
index is out of range. -/
def listModify (f : α → α) : Nat → List α → List α
  | _, [] => []
  | 0, x :: xs => f x :: xs
  | n + 1, x :: xs => x :: listModify f n xs

/-- Modelled from the spec: addHeading appends a Heading block carrying the
text as a single plain run; a level outside [1,9] is rejected with
InvalidArgument before any mutation. -/
def Document.addHeading (d : Document) (text : String) (level : Int) :
    Except DocxError Document :=
  if level < 1 ∨ 9 < level then
    .error .invalidArgument
  else
    .ok { d with blocks := d.blocks ++ [Block.heading level.toNat [plainRun text]] }

/-- Modelled from the spec: addParagraph appends an empty Paragraph block
and returns a reference to it (here: its index in the block sequence). -/
def Document.addParagraph (d : Document) : Document × Nat :=
  ({ d with blocks := d.blocks ++ [Block.paragraph none []] }, d.blocks.length)

/-- Append a run to the run sequence of a block. -/
def Block.appendRun (b : Block) (r : Run) : Block :=
  match b with
  | .heading lvl rs => .heading lvl (rs ++ [r])
  | .paragraph al rs => .paragraph al (rs ++ [r])

/-- Apply a function to one run of a block, by index. -/
def Block.modifyRun (b : Block) (rIdx : Nat) (f : Run → Run) : Block :=
  match b with
  | .heading lvl rs => .heading lvl (listModify f rIdx rs)
  | .paragraph al rs => .paragraph al (listModify f rIdx rs)

/-- Modelled from the spec: appendRun on a block of the document; returns
the reference to the stored run (its index in the run sequence of the
block). An out-of-range block index leaves the document unchanged. -/
def Document.appendRun (d : Document) (bIdx : Nat) (r : Run) : Document × Nat :=
  let rIdx := match d.blocks.get? bIdx with
    | some b => b.runs.length
    | none => 0
  ({ d with blocks := listModify (fun b => b.appendRun r) bIdx d.blocks }, rIdx)

/-- Set the bold flag of the run referenced by block and run index. -/
def Document.setRunBold (d : Document) (bIdx rIdx : Nat) (v : Bool) : Document :=
  { d with blocks := listModify (fun b => b.modifyRun rIdx (fun r => { r with bold := v })) bIdx d.blocks }

/-- Set the italic flag of the run referenced by block and run index. -/
def Document.setRunItalic (d : Document) (bIdx rIdx : Nat) (v : Bool) : Document :=
  { d with blocks := listModify (fun b => b.modifyRun rIdx (fun r => { r with italic := v })) bIdx d.blocks }

/-- Set the color of the run referenced by block and run index. -/
def Document.setRunColor (d : Document) (bIdx rIdx : Nat) (v : Option String) : Document :=
  { d with blocks := listModify (fun b => b.modifyRun rIdx (fun r => { r with color := v })) bIdx d.blocks }

/-- Set the title core property. -/
def Document.setTitle (d : Document) (s : String) : Document :=
  { d with coreProperties := { d.coreProperties with title := some s } }

/-- Set the author core property. -/
def Document.setAuthor (d : Document) (s : String) : Document :=
  { d with coreProperties := { d.coreProperties with author := some s } }

/-- Modelled from the spec: the text-argument form of add_paragraph used by
the example script is addParagraph followed by appending one unformatted
run carrying the text. -/
def Document.addParagraphText (d : Document) (s : String) : Document :=
  let p := d.addParagraph
  (p.1.appendRun p.2 (plainRun s)).1

/-- The mutation operations of section 4.1, as reified authoring steps. -/
inductive Op where
  | setTitle (s : String)
  | setAuthor (s : String)
  | addHeading (text : String) (level : Int)
  | addParagraph
  | addParagraphText (text : String)
  | appendRun (bIdx : Nat) (r : Run)
  | setRunBold (bIdx rIdx : Nat) (v : Bool)
  | setRunItalic (bIdx rIdx : Nat) (v : Bool)
  | setRunColor (bIdx rIdx : Nat) (v : Option String)
deriving Repr, DecidableEq

/-- One authoring step. A failing addHeading (level out of range) leaves the
document unchanged, as the spec requires rejection before any mutation. -/
def applyOp (d : Document) : Op → Document
  | .setTitle s => d.setTitle s
  | .setAuthor s => d.setAuthor s
  | .addHeading t l =>
      match d.addHeading t l with
      | .ok d2 => d2
      | .error _ => d
  | .addParagraph => d.addParagraph.1
  | .addParagraphText t => d.addParagraphText t
  | .appendRun b r => (d.appendRun b r).1
  | .setRunBold b i v => d.setRunBold b i v
  | .setRunItalic b i v => d.setRunItalic b i v
  | .setRunColor b i v => d.setRunColor b i v

/-- The document built by a sequence of authoring steps from the empty
document. -/
def buildDoc (ops : List Op) : Document :=
  ops.foldl applyOp Document.empty

/-- Block wellformedness: a heading level lies in [1,9]. -/
def Block.wfb : Block → Bool
  | .heading lvl _ => decide (1 ≤ lvl) && decide (lvl ≤ 9)
  | .paragraph _ _ => true

/-- Document wellformedness: every block is wellformed. -/
def Document.wf (d : Document) : Bool :=
  d.blocks.all Block.wfb

/-! ## XML escaping and whitespace handling -/

/-- Modelled from the spec: escape one character for XML text content; the
five reserved characters become entity references. -/
def escapeChar (c : Char) : List Char :=
  if c = '&' then "&amp;".data
  else if c = '<' then "&lt;".data
  else if c = '>' then "&gt;".data
  else if c = '"' then "&quot;".data
  else if c = '\'' then "&apos;".data
  else [c]

/-- Escape a character list for XML text content. -/
def escapeList : List Char → List Char
  | [] => []
  | c :: cs => escapeChar c ++ escapeList cs

/-- Recognize an entity body at the head of the character list (the part
after an ampersand), returning the denoted character and the remainder. -/
def entityAt (cs : List Char) : Option (Char × List Char) :=
  if List.isPrefixOf ['a', 'm', 'p', ';'] cs then some ('&', cs.drop 4)
  else if List.isPrefixOf ['l', 't', ';'] cs then some ('<', cs.drop 3)
  else if List.isPrefixOf ['g', 't', ';'] cs then some ('>', cs.drop 3)
  else if List.isPrefixOf ['q', 'u', 'o', 't', ';'] cs then some ('"', cs.drop 5)
  else if List.isPrefixOf ['a', 'p', 'o', 's', ';'] cs then some ('\'', cs.drop 5)
  else none

/-- Modelled from the spec: the inverse direction of the text codec, as the
Reader applies it — entity references back to the reserved characters. A
recognized entity body consumes at least its terminating semicolon, so the
remainder is strictly shorter and the recursion terminates. -/
def unescapeList : List Char → List Char
  | [] => []
  | c :: cs =>
      if c = '&' then
        match h : entityAt cs with
        | some p => p.1 :: unescapeList p.2
        | none => c :: unescapeList cs
      else c :: unescapeList cs
termination_by l => l.length
decreasing_by
  · unfold entityAt at h
    split_ifs at h
    · injection h with h2; subst h2; simp [List.length_drop, List.length_cons]; omega
    · injection h with h2; subst h2; simp [List.length_drop, List.length_cons]; omega
    · injection h with h2; subst h2; simp [List.length_drop, List.length_cons]; omega
    · injection h with h2; subst h2; simp [List.length_drop, List.length_cons]; omega
    · injection h with h2; subst h2; simp [List.length_drop, List.length_cons]; omega
  · simp [List.length_cons]
  · simp [List.length_cons]

/-- XML-escape a string. -/
def escapeXml (s : String) : String := ⟨escapeList s.data⟩

/-- Undo XML escaping on a string. -/
def unescapeXml (s : String) : String := ⟨unescapeList s.data⟩

/-- Whitespace as the container format treats it in text content. -/
def isWsChar (c : Char) : Bool :=
  c == ' ' || c == '\t' || c == '\n' || c == '\r'

/-- Drop leading whitespace characters. -/
def dropLeadingWs : List Char → List Char
  | [] => []
  | c :: cs => if isWsChar c then dropLeadingWs cs else c :: cs

/-- Drop leading and trailing whitespace characters. -/
def trimChars (l : List Char) : List Char :=
  (dropLeadingWs ((dropLeadingWs l).reverse)).reverse

/-- Trim surrounding whitespace from a string, as a reader of text content
without a preserve marker does. -/
def trimStr (s : String) : String := ⟨trimChars s.data⟩

/-- The last character of a nonempty character list, with a default. -/
def lastCharD : List Char → Char → Char
  | [], d => d
  | c :: cs, _ => lastCharD cs c

/-- Modelled from the spec: text has significant surrounding whitespace, so
the explicit preserve marker is required, exactly when its first or last
character is whitespace. -/
def needsPreserve (s : String) : Bool :=
  match s.data with
  | [] => false
  | c :: cs => isWsChar c || isWsChar (lastCharD cs c)

/-! ## The XML tree and part contents -/

/-- A well-formed XML node: an element with attributes and children, or a
text node. Part contents are modelled at this tree level; rendering a tree
to bytes applies the escaping above. -/
inductive Xml where
  | elem (tag : String) (attrs : List (String × String)) (children : List Xml)
  | text (s : String)
deriving Repr

/-- Whether a node is an element with the given tag. -/
def Xml.tagIs (x : Xml) (t : String) : Bool :=
  match x with
  | .elem tag _ _ => tag == t
  | .text _ => false

/-- The child list of a node (empty for text nodes). -/
def Xml.childrenOf : Xml → List Xml
  | .elem _ _ cs => cs
  | .text _ => []

/-- Look up an attribute value by key. -/
def attrVal (attrs : List (String × String)) (key : String) : Option String :=
  (attrs.find? (fun a => a.1 == key)).map Prod.snd

/-- The first child element with the given tag, unknown siblings ignored. -/
def findChild (t : String) (children : List Xml) : Option Xml :=
  children.find? (fun c => c.tagIs t)

/-- How many child elements carry the given tag. -/
def countTag (children : List Xml) (t : String) : Nat :=
  (children.filter (fun c => c.tagIs t)).length

/-- The text content of an element whose single child is a text node. -/
def textOf : Xml → String
  | .elem _ _ [Xml.text s] => s
  | _ => ""

/-! ## Package Writer -/

/-- The color child of a run properties element, present only when the
color is set. -/
def colorChildren : Option String → List Xml
  | some v => [Xml.elem "w:color" [("w:val", v)] []]
  | none => []

/-- Modelled from the spec: formatting children of a run are present only
for flags that are true or set; absence encodes off. -/
def runPropChildren (r : Run) : List Xml :=
  (if r.bold then [Xml.elem "w:b" [] []] else [])
    ++ (if r.italic then [Xml.elem "w:i" [] []] else [])
    ++ colorChildren r.color

/-- The run properties element, omitted entirely when no flag is set. -/
def runPropElems (r : Run) : List Xml :=
  match runPropChildren r with
  | [] => []
  | cs => [Xml.elem "w:rPr" [] cs]

/-- Modelled from the spec: the preserve marker is emitted exactly when the
text has significant surrounding whitespace. -/
def textAttrs (s : String) : List (String × String) :=
  if needsPreserve s then [("xml:space", "preserve")] else []

/-- Serialize one run to its run element. -/
def writeRun (r : Run) : Xml :=
  Xml.elem "w:r" [] (runPropElems r ++ [Xml.elem "w:t" (textAttrs r.text) [Xml.text r.text]])

/-- Modelled from the spec: the style identifier convention for heading
levels. -/
def headingStyle (lvl : Nat) : String := "Heading" ++ toString lvl

/-- Serialize one block to its paragraph element: a heading carries its
level through a style reference; alignment, when set, appears as a
justification child. -/
def writeBlock : Block → Xml
  | .heading lvl rs =>
      Xml.elem "w:p" []
        (Xml.elem "w:pPr" [] [Xml.elem "w:pStyle" [("w:val", headingStyle lvl)] []]
          :: rs.map writeRun)
  | .paragraph none rs => Xml.elem "w:p" [] (rs.map writeRun)
  | .paragraph (some al) rs =>
      Xml.elem "w:p" []
        (Xml.elem "w:pPr" [] [Xml.elem "w:jc" [("w:val", al)] []]
          :: rs.map writeRun)

/-- The main document part: blocks in document order inside the body. -/
def writeDocumentXml (d : Document) : Xml :=
  Xml.elem "w:document" [] [Xml.elem "w:body" [] (d.blocks.map writeBlock)]

/-- One optional metadata element, omitted (not emitted empty) when the
field is unset. -/
def optionElem (tag : String) : Option String → List Xml
  | some v => [Xml.elem tag [] [Xml.text v]]
  | none => []

/-- The core-properties part: Dublin Core elements present only when set. -/
def writeCoreXml (cp : CoreProperties) : Xml :=
  Xml.elem "cp:coreProperties" []
    (optionElem "dc:title" cp.title
      ++ optionElem "dc:creator" cp.author
      ++ optionElem "dcterms:created" cp.created
      ++ optionElem "dcterms:modified" cp.modified)

/-- A relationship edge of the package graph. -/
def relationship (rid ty target : String) : Xml :=
  Xml.elem "Relationship" [("Id", rid), ("Type", ty), ("Target", target)] []

/-- The relationship type of the main document part. -/
def officeDocumentRelType : String :=
  "http://schemas.openxmlformats.org/officeDocument/2006/relationships/officeDocument"

/-- The relationship type of the core-properties part. -/
def corePropsRelType : String :=
  "http://schemas.openxmlformats.org/package/2006/relationships/metadata/core-properties"

/-- The root relationships part, linking the package to the main document
part. -/
def rootRelsXml : Xml :=
  Xml.elem "Relationships" [] [relationship "rId1" officeDocumentRelType "word/document.xml"]

/-- The document relationships part, linking the document part to its
properties part. -/
def docRelsXml : Xml :=
  Xml.elem "Relationships" [] [relationship "rId1" corePropsRelType "docProps/core.xml"]

/-- The content-types manifest declaring the MIME type of every part. -/
def contentTypesXml : Xml :=
  Xml.elem "Types" []
    [ Xml.elem "Default"
        [("Extension", "rels"),
         ("ContentType", "application/vnd.openxmlformats-package.relationships+xml")] []
    , Xml.elem "Default" [("Extension", "xml"), ("ContentType", "application/xml")] []
    , Xml.elem "Override"
        [("PartName", "/word/document.xml"),
         ("ContentType",
          "application/vnd.openxmlformats-officedocument.wordprocessingml.document.main+xml")] []
    , Xml.elem "Override"
        [("PartName", "/docProps/core.xml"),
         ("ContentType", "application/vnd.openxmlformats-package.core-properties+xml")] [] ]

/-- Modelled from the spec: the Package Writer emits the five required
parts in a stable order — content types first, then relationships, then
document parts. -/
def save (d : Document) : List (String × Xml) :=
  [ ("[Content_Types].xml", contentTypesXml)
  , ("_rels/.rels", rootRelsXml)
  , ("word/document.xml", writeDocumentXml d)
  , ("word/_rels/document.xml.rels", docRelsXml)
  , ("docProps/core.xml", writeCoreXml d.coreProperties) ]

/-! ## Rendering parts to bytes and the archive -/

/-- Render an attribute list, values escaped. -/
def renderAttrs : List (String × String) → String
  | [] => ""
  | (k, v) :: rest => " " ++ k ++ "=\"" ++ escapeXml v ++ "\"" ++ renderAttrs rest

mutual

/-- Render an XML tree to its byte representation; text content is escaped
so reserved characters never appear raw in markup. -/
def render : Xml → String
  | .text s => escapeXml s
  | .elem tag attrs children =>
      if children.isEmpty then "<" ++ tag ++ renderAttrs attrs ++ "/>"
      else
        "<" ++ tag ++ renderAttrs attrs ++ ">" ++ renderChildren children
          ++ "</" ++ tag ++ ">"

/-- Render a child list in order. -/
def renderChildren : List Xml → String
  | [] => ""
  | x :: xs => render x ++ renderChildren xs

end

/-- One entry of the zip archive: name, compression settings, timestamp and
rendered bytes. -/
structure ZipEntry where
  name : String
  compressionMethod : String
  mtime : Nat
  bytes : String
deriving Repr, DecidableEq

/-- Modelled from the spec: the archive the Writer produces, entries in the
stable part order, each with fixed compression settings and the one fixed
timestamp. -/
def writeArchive (d : Document) (mtime : Nat) : List ZipEntry :=
  (save d).map (fun p => ⟨p.1, "deflate", mtime, render p.2⟩)

/-! ## Package Reader -/

/-- Look up a part of the package by name. -/
def findPart (pkg : List (String × Xml)) (name : String) : Option Xml :=
  (pkg.find? (fun p => p.1 == name)).map Prod.snd

/-- The target of the first relationship of the given type in a
relationships part. -/
def relTarget (relsPart : Xml) (ty : String) : Option String :=
  match relsPart with
  | .elem "Relationships" _ children =>
      match children.find? (fun c =>
          match c with
          | .elem "Relationship" attrs _ => attrVal attrs "Type" == some ty
          | _ => false) with
      | some (.elem _ attrs _) => attrVal attrs "Target"
      | _ => none
  | _ => none

/-- The conventional location of the relationships part attached to a part:
its directory, then an extra path segment, then the base name with a rels
suffix. -/
def relsPathFor (partName : String) : String :=
  let revd := partName.data.reverse
  let revBase := revd.takeWhile (fun c => !(c == '/'))
  let revDir := revd.dropWhile (fun c => !(c == '/'))
  ⟨revDir.reverse ++ "_rels/".data ++ revBase.reverse ++ ".rels".data⟩

/-- Parse one run element: formatting flags from the presence of their
children, text from the text child with the preserve marker honored —
without the marker, surrounding whitespace is not significant and is
dropped. A run element with no text child violates the minimal schema. -/
def parseRun : Xml → Except DocxError Run
  | .elem "w:r" _ children =>
      let rPrChildren := match findChild "w:rPr" children with
        | some (.elem _ _ cs) => cs
        | _ => []
      let bold := (findChild "w:b" rPrChildren).isSome
      let italic := (findChild "w:i" rPrChildren).isSome
      let color := match findChild "w:color" rPrChildren with
        | some (.elem _ attrs _) => attrVal attrs "w:val"
        | _ => none
      match findChild "w:t" children with
      | some (.elem _ attrs tcs) =>
          let raw := match tcs with
            | [Xml.text s] => s
            | _ => ""
          let txt := if attrVal attrs "xml:space" == some "preserve" then raw
            else trimStr raw
          .ok { text := txt, bold := bold, italic := italic, color := color }
      | _ => .error .schemaViolation
  | _ => .error .schemaViolation

/-- Parse a list of run elements, failing on the first violation. -/
def parseRuns : List Xml → Except DocxError (List Run)
  | [] => .ok []
  | x :: xs =>
      match parseRun x with
      | .error e => .error e
      | .ok r =>
          match parseRuns xs with
          | .error e => .error e
          | .ok rs => .ok (r :: rs)

/-- The style identifiers this core recognizes as heading levels. -/
def headingLevelOfStyle (s : String) : Option Nat :=
  (([("Heading1", 1), ("Heading2", 2), ("Heading3", 3), ("Heading4", 4),
     ("Heading5", 5), ("Heading6", 6), ("Heading7", 7), ("Heading8", 8),
     ("Heading9", 9)] : List (String × Nat)).find? (fun p => p.1 == s)).map Prod.snd

/-- The paragraph alignment recorded in a paragraph properties child list. -/
def alignmentOf (pcs : List Xml) : Option String :=
  match findChild "w:jc" pcs with
  | some (.elem _ attrs _) => attrVal attrs "w:val"
  | _ => none

/-- Parse one block element: a paragraph whose style reference encodes a
heading level becomes a Heading; a table is a recognized but unsupported
feature; unknown children are ignored. -/
def parseBlock : Xml → Except DocxError Block
  | .elem "w:p" _ children =>
      match parseRuns (children.filter (fun c => c.tagIs "w:r")) with
      | .error e => .error e
      | .ok rs =>
          match findChild "w:pPr" children with
          | some (.elem _ _ pcs) =>
              match (findChild "w:pStyle" pcs) with
              | some (.elem _ attrs _) =>
                  match (attrVal attrs "w:val").bind headingLevelOfStyle with
                  | some lvl => .ok (Block.heading lvl rs)
                  | none => .ok (Block.paragraph (alignmentOf pcs) rs)
              | _ => .ok (Block.paragraph (alignmentOf pcs) rs)
          | _ => .ok (Block.paragraph none rs)
  | .elem "w:tbl" _ _ => .error .unsupportedFeature
  | _ => .error .schemaViolation

/-- Parse a list of block elements, failing on the first violation. -/
def parseBlocks : List Xml → Except DocxError (List Block)
  | [] => .ok []
  | x :: xs =>
      match parseBlock x with
      | .error e => .error e
      | .ok b =>
          match parseBlocks xs with
          | .error e => .error e
          | .ok bs => .ok (b :: bs)

/-- Parse the main document part into the block sequence; elements other
than paragraphs and tables inside the body are ignored. -/
def parseDocumentXml : Xml → Except DocxError (List Block)
  | .elem "w:document" _ children =>
      match findChild "w:body" children with
      | some (.elem _ _ bcs) =>
          parseBlocks (bcs.filter (fun c => c.tagIs "w:p" || c.tagIs "w:tbl"))
      | _ => .error .schemaViolation
  | _ => .error .schemaViolation

/-- Parse the core-properties part; each field is set exactly when its
element is present. -/
def parseCoreProps : Xml → Except DocxError CoreProperties
  | .elem "cp:coreProperties" _ children =>
      .ok { title := (findChild "dc:title" children).map textOf
          , author := (findChild "dc:creator" children).map textOf
          , created := (findChild "dcterms:created" children).map textOf
          , modified := (findChild "dcterms:modified" children).map textOf }
  | _ => .error .malformedPackage

/-- Locate the document part and the core-properties part by walking the
relationship graph from the package root, checking the required manifest
exists; no fixed part name is assumed beyond the root relationships entry. -/
def locateParts (pkg : List (String × Xml)) : Option (Xml × Xml) :=
  match findPart pkg "[Content_Types].xml" with
  | none => none
  | some _ =>
      match (findPart pkg "_rels/.rels").bind
          (fun r => relTarget r officeDocumentRelType) with
      | none => none
      | some docTarget =>
          match findPart pkg docTarget with
          | none => none
          | some docXml =>
              match ((findPart pkg (relsPathFor docTarget)).bind
                  (fun r => relTarget r corePropsRelType)).bind
                  (fun coreTarget => findPart pkg coreTarget) with
              | none => none
              | some coreXml => some (docXml, coreXml)

/-- Modelled from the spec: the Package Reader — locate parts through the
relationship graph, then parse the document part and the core-properties
part back into a Document. -/
def load (pkg : List (String × Xml)) : Except DocxError Document :=
  match locateParts pkg with
  | none => .error .malformedPackage
  | some parts =>
      match parseDocumentXml parts.1 with
      | .error e => .error e
      | .ok blocks =>
          match parseCoreProps parts.2 with
          | .error e => .error e
          | .ok cp => .ok { coreProperties := cp, blocks := blocks }

/-! ## Concrete scenarios from the specification and the example script -/

/-- The run stored at a block index and run index, when both exist. -/
def runAt (d : Document) (bIdx rIdx : Nat) : Option Run :=
  (d.blocks.get? bIdx).bind (fun b => b.runs.get? rIdx)

/-- The end-to-end scenario of section 8: one level-1 heading, then one
paragraph with a bold run followed by a plain run. -/
def scenarioDoc : Document :=
  let d0 := Document.empty
  let d1 := match d0.addHeading "Introduction" 1 with
    | .ok d => d
    | .error _ => d0
  let p := d1.addParagraph
  let q := p.1.appendRun p.2 (plainRun "p < 0.001")
  let d2 := q.1.setRunBold p.2 q.2 true
  (d2.appendRun p.2 (plainRun " in the treatment group")).1

/-- The Results section of the second fixture in the example script: a
heading, then a paragraph of three appended runs where the middle run has
bold and italic set through the returned run reference after appending. -/
def resultsSectionNew : Document :=
  let d0 := Document.empty
  let d1 := match d0.addHeading "Results" 1 with
    | .ok d => d
    | .error _ => d0
  let p := d1.addParagraph
  let q1 := p.1.appendRun p.2
    (plainRun "The primary outcome measure showed significant improvement ")
  let q2 := q1.1.appendRun p.2 (plainRun "(p < 0.001)")
  let d2 := q2.1.setRunBold p.2 q2.2 true
  let d3 := d2.setRunItalic p.2 q2.2 true
  (d3.appendRun p.2 (plainRun " in the treatment group compared to placebo.")).1

/-! ## Helper lemmas: the text codec -/

/-- Unfolding equation of the unescaper on a nonempty list. -/
theorem unescape_cons (c : Char) (cs : List Char) :
    unescapeList (c :: cs) =
      if c = '&' then
        match entityAt cs with
        | some p => p.1 :: unescapeList p.2
        | none => c :: unescapeList cs
      else c :: unescapeList cs := by
  rw [unescapeList.eq_def]
  split
  next heq => cases heq
  next c2 cs2 heq =>
    injection heq with h1 h2
    subst h1
    subst h2
    split
    · split
      next p2 heq2 => rw [heq2]
      next heq2 => rw [heq2]
    · rfl

/-- An ampersand followed by a recognized entity body unescapes to the
denoted character. -/
theorem unescape_entity (cs : List Char) (p : Char × List Char)
    (h : entityAt cs = some p) :
    unescapeList ('&' :: cs) = p.1 :: unescapeList p.2 := by
  rw [unescape_cons, if_pos rfl, h]

/-- Any character other than an ampersand unescapes to itself. -/
theorem unescape_cons_ne (c : Char) (l : List Char) (h : c ≠ '&') :
    unescapeList (c :: l) = c :: unescapeList l := by
  rw [unescape_cons, if_neg h]

theorem entityAt_amp (l : List Char) :
    entityAt ('a' :: 'm' :: 'p' :: ';' :: l) = some ('&', l) := by
  simp [entityAt, List.isPrefixOf]

theorem entityAt_lt (l : List Char) :
    entityAt ('l' :: 't' :: ';' :: l) = some ('<', l) := by
  simp [entityAt, List.isPrefixOf]

theorem entityAt_gt (l : List Char) :
    entityAt ('g' :: 't' :: ';' :: l) = some ('>', l) := by
  simp [entityAt, List.isPrefixOf]

theorem entityAt_quot (l : List Char) :
    entityAt ('q' :: 'u' :: 'o' :: 't' :: ';' :: l) = some ('"', l) := by
  simp [entityAt, List.isPrefixOf]

theorem entityAt_apos (l : List Char) :
    entityAt ('a' :: 'p' :: 'o' :: 's' :: ';' :: l) = some ('\'', l) := by
  simp [entityAt, List.isPrefixOf]

/-- Unescaping is a left inverse of escaping on character lists. -/
theorem unescape_escape (l : List Char) : unescapeList (escapeList l) = l := by
  induction l with
  | nil => rw [escapeList, unescapeList]
  | cons c cs ih =>
      show unescapeList (escapeChar c ++ escapeList cs) = c :: cs
      by_cases h1 : c = '&'
      · subst h1
        have he : escapeChar '&' ++ escapeList cs
            = '&' :: ('a' :: 'm' :: 'p' :: ';' :: escapeList cs) := rfl
        rw [he, unescape_entity _ ('&', escapeList cs) (entityAt_amp _), ih]
      by_cases h2 : c = '<'
      · subst h2
        have he : escapeChar '<' ++ escapeList cs
            = '&' :: ('l' :: 't' :: ';' :: escapeList cs) := rfl
        rw [he, unescape_entity _ ('<', escapeList cs) (entityAt_lt _), ih]
      by_cases h3 : c = '>'
      · subst h3
        have he : escapeChar '>' ++ escapeList cs
            = '&' :: ('g' :: 't' :: ';' :: escapeList cs) := rfl
        rw [he, unescape_entity _ ('>', escapeList cs) (entityAt_gt _), ih]
      by_cases h4 : c = '"'
      · subst h4
        have he : escapeChar '"' ++ escapeList cs
            = '&' :: ('q' :: 'u' :: 'o' :: 't' :: ';' :: escapeList cs) := rfl
        rw [he, unescape_entity _ ('"', escapeList cs) (entityAt_quot _), ih]
      by_cases h5 : c = '\''
      · subst h5
        have he : escapeChar '\'' ++ escapeList cs
            = '&' :: ('a' :: 'p' :: 'o' :: 's' :: ';' :: escapeList cs) := rfl
        rw [he, unescape_entity _ ('\'', escapeList cs) (entityAt_apos _), ih]
      · have he : escapeChar c = [c] := by
          simp [escapeChar, h1, h2, h3, h4, h5]
        rw [he, List.cons_append, List.nil_append, unescape_cons_ne c _ h1, ih]

/-- No reserved character other than the entity-introducing ampersand
survives escaping in raw form. -/
theorem escape_no_raw (l : List Char) :
    (escapeList l).all
      (fun c => !(c == '<') && !(c == '>') && !(c == '"') && !(c == '\'')) = true := by
  induction l with
  | nil => rfl
  | cons c cs ih =>
      show ((escapeChar c ++ escapeList cs).all _) = true
      rw [List.all_append, ih, Bool.and_true]
      by_cases h1 : c = '&'
      · subst h1; rfl
      by_cases h2 : c = '<'
      · subst h2; rfl
      by_cases h3 : c = '>'
      · subst h3; rfl
      by_cases h4 : c = '"'
      · subst h4; rfl
      by_cases h5 : c = '\''
      · subst h5; rfl
      · have he : escapeChar c = [c] := by
          simp [escapeChar, h1, h2, h3, h4, h5]
        rw [he]
        simp [h2, h3, h4, h5]

/-! ## Helper lemmas: whitespace trimming -/

/-- A list whose head is not whitespace is unchanged by leading trim. -/
theorem dropLeadingWs_of_head (l : List Char) (a : Char)
    (hh : l.head? = some a) (hw : isWsChar a = false) :
    dropLeadingWs l = l := by
  cases l with
  | nil => cases hh
  | cons c cs =>
      injection hh with h1
      subst h1
      simp [dropLeadingWs, hw]

/-- The head of a reversed nonempty list is its last element. -/
theorem head_reverse_last (cs : List Char) : ∀ (c : Char),
    ((c :: cs).reverse).head? = some (lastCharD cs c) := by
  induction cs with
  | nil => intro c; rfl
  | cons c2 cs2 ih =>
      intro c
      have h1 : (c :: c2 :: cs2).reverse = (c2 :: cs2).reverse ++ [c] := by
        simp
      rw [h1, List.head?_append]
      rw [ih c2]
      rfl

/-- Text without significant surrounding whitespace is unchanged by the
trim a reader applies in the absence of the preserve marker. -/
theorem trimChars_of_ends (c : Char) (cs : List Char)
    (h1 : isWsChar c = false) (h2 : isWsChar (lastCharD cs c) = false) :
    trimChars (c :: cs) = c :: cs := by
  unfold trimChars
  rw [dropLeadingWs_of_head (c :: cs) c rfl h1]
  rw [dropLeadingWs_of_head ((c :: cs).reverse) (lastCharD cs c) (head_reverse_last cs c) h2]
  exact List.reverse_reverse _

/-- String form of the trimming identity: no preserve marker needed means
trimming is the identity. -/
theorem trimStr_eq_self (s : String) (h : needsPreserve s = false) :
    trimStr s = s := by
  cases s with
  | mk l =>
      cases l with
      | nil => rfl
      | cons c cs =>
          have h2 := h
          unfold needsPreserve at h2
          simp only [Bool.or_eq_false_iff] at h2
          show String.mk (trimChars (c :: cs)) = String.mk (c :: cs)
          rw [trimChars_of_ends c cs h2.1 h2.2]

/-! ## Helper lemmas: the reader inverts the writer -/
theorem parseRun_writeRun (r : Run) : parseRun (writeRun r) = Except.ok r := by
  obtain ⟨tx, b, i, co⟩ := r
  by_cases hp : needsPreserve tx = true
  · cases b <;> cases i <;> rcases co with _ | v <;>
      simp [writeRun, parseRun, runPropElems, runPropChildren, colorChildren,
        textAttrs, hp, findChild, Xml.tagIs, attrVal, List.find?]
  · have ht := trimStr_eq_self tx (by simpa using hp)
    cases b <;> cases i <;> rcases co with _ | v <;>
      simp [writeRun, parseRun, runPropElems, runPropChildren, colorChildren,
        textAttrs, hp, findChild, Xml.tagIs, attrVal, List.find?, ht]

theorem tagIs_elem (tag t : String) (attrs : List (String × String))
    (children : List Xml) :
    (Xml.elem tag attrs children).tagIs t = (tag == t) := rfl

theorem findChild_nil (t : String) : findChild t [] = none := rfl

theorem findChild_cons (t : String) (x : Xml) (xs : List Xml) :
    findChild t (x :: xs) = if x.tagIs t then some x else findChild t xs := by
  cases h : x.tagIs t <;>
    simp [findChild, List.find?_cons_of_pos, List.find?_cons_of_neg, h]

theorem writeRun_tag (r : Run) : (writeRun r).tagIs "w:r" = true := rfl

theorem filter_writeRun (rs : List Run) :
    (rs.map writeRun).filter (fun c => c.tagIs "w:r") = rs.map writeRun := by
  induction rs with
  | nil => rfl
  | cons r rs ih => simp [List.filter_cons, writeRun_tag, ih]

theorem findChild_pPr_writeRuns (rs : List Run) :
    findChild "w:pPr" (rs.map writeRun) = none := by
  induction rs with
  | nil => rfl
  | cons r rs ih =>
      rw [List.map_cons, findChild_cons]
      simp only [writeRun, tagIs_elem]
      simp [ih]

theorem parseRuns_map (rs : List Run) : parseRuns (rs.map writeRun) = Except.ok rs := by
  induction rs with
  | nil => rfl
  | cons r rs ih => simp [parseRuns, parseRun_writeRun, ih]

theorem headingLevelOfStyle_style (lvl : Nat) (h1 : 1 ≤ lvl) (h2 : lvl ≤ 9) :
    headingLevelOfStyle (headingStyle lvl) = some lvl := by
  interval_cases lvl <;> rfl

theorem parseBlock_writeBlock (b : Block) (h : b.wfb = true) :
    parseBlock (writeBlock b) = Except.ok b := by
  cases b with
  | heading lvl rs =>
      have h12 : 1 ≤ lvl ∧ lvl ≤ 9 := by
        simpa [Block.wfb] using h
      simp [writeBlock, parseBlock, tagIs_elem, findChild_cons, List.filter_cons,
        filter_writeRun, parseRuns_map, attrVal, List.find?,
        headingLevelOfStyle_style lvl h12.1 h12.2]
  | paragraph al rs =>
      cases al with
      | none =>
          simp [writeBlock, parseBlock, tagIs_elem, List.filter_cons,
            filter_writeRun, parseRuns_map, findChild_pPr_writeRuns]
      | some a =>
          simp [writeBlock, parseBlock, tagIs_elem, findChild_cons,
            List.filter_cons, filter_writeRun, parseRuns_map, attrVal,
            List.find?, alignmentOf, findChild_nil]

theorem writeBlock_tag (b : Block) : (writeBlock b).tagIs "w:p" = true := by
  cases b with
  | heading lvl rs => rfl
  | paragraph al rs => cases al <;> rfl

theorem filter_writeBlock (bs : List Block) :
    (bs.map writeBlock).filter (fun c => c.tagIs "w:p" || c.tagIs "w:tbl")
      = bs.map writeBlock := by
  induction bs with
  | nil => rfl
  | cons b bs ih => simp [List.filter_cons, writeBlock_tag, ih]

theorem parseBlocks_map (bs : List Block) (h : bs.all Block.wfb = true) :
    parseBlocks (bs.map writeBlock) = Except.ok bs := by
  induction bs with
  | nil => rfl
  | cons b bs ih =>
      rw [List.all_cons, Bool.and_eq_true] at h
      simp [parseBlocks, parseBlock_writeBlock b h.1, ih h.2]

theorem parseDocumentXml_write (d : Document) (h : d.wf = true) :
    parseDocumentXml (writeDocumentXml d) = Except.ok d.blocks := by
  simp [writeDocumentXml, parseDocumentXml, findChild_cons, tagIs_elem,
    filter_writeBlock, parseBlocks_map d.blocks h]

theorem parseCoreProps_write (cp : CoreProperties) :
    parseCoreProps (writeCoreXml cp) = Except.ok cp := by
  obtain ⟨t, a, c, m⟩ := cp
  rcases t with _ | tv <;> rcases a with _ | av <;> rcases c with _ | cv <;>
    rcases m with _ | mv <;>
      simp [writeCoreXml, parseCoreProps, optionElem, findChild, Xml.tagIs,
        List.find?, textOf]

theorem locateParts_save (d : Document) :
    locateParts (save d) = some (writeDocumentXml d, writeCoreXml d.coreProperties) := rfl

theorem load_save (d : Document) (h : d.wf = true) :
    load (save d) = Except.ok d := by
  simp only [load, locateParts_save]
  rw [parseDocumentXml_write d h, parseCoreProps_write d.coreProperties]

/-! ## Helper lemmas: wellformedness and indexing -/
theorem wfb_appendRun (b : Block) (r : Run) : (b.appendRun r).wfb = b.wfb := by
  cases b <;> rfl

theorem wfb_modifyRun (b : Block) (i : Nat) (f : Run → Run) :
    (b.modifyRun i f).wfb = b.wfb := by
  cases b <;> rfl

theorem all_listModify (p : α → Bool) (f : α → α) (hf : ∀ x, p (f x) = p x)
    (i : Nat) (l : List α) (h : l.all p = true) :
    (listModify f i l).all p = true := by
  induction l generalizing i with
  | nil => simpa [listModify] using h
  | cons x xs ih =>
      rw [List.all_cons, Bool.and_eq_true] at h
      cases i with
      | zero => simp [listModify, hf, h.1, h.2]
      | succ n => simp [listModify, h.1, ih n h.2]

theorem wf_applyOp (d : Document) (op : Op) (h : d.wf = true) :
    (applyOp d op).wf = true := by
  cases op with
  | setTitle s => simpa [applyOp, Document.setTitle, Document.wf] using h
  | setAuthor s => simpa [applyOp, Document.setAuthor, Document.wf] using h
  | addHeading t l =>
      by_cases hc : l < 1 ∨ 9 < l
      · simpa [applyOp, Document.addHeading, hc] using h
      · push_neg at hc
        have hif : ¬(l < 1 ∨ 9 < l) := by omega
        simp only [applyOp, Document.addHeading, if_neg hif]
        simp only [Document.wf, List.all_append, Bool.and_eq_true]
        refine ⟨h, ?_⟩
        simp [Block.wfb]
        omega
  | addParagraph =>
      simp [applyOp, Document.addParagraph, Document.wf, List.all_append,
        Block.wfb] at h ⊢
      exact h
  | addParagraphText t =>
      simp only [applyOp, Document.addParagraphText, Document.addParagraph,
        Document.appendRun, Document.wf]
      refine all_listModify _ _ (fun b => wfb_appendRun b _) _ _ ?_
      simp [List.all_append, Block.wfb]
      simpa [Document.wf] using h
  | appendRun b r =>
      simp only [applyOp, Document.appendRun, Document.wf]
      exact all_listModify _ _ (fun b2 => wfb_appendRun b2 _) _ _
        (by simpa [Document.wf] using h)
  | setRunBold b i v =>
      simp only [applyOp, Document.setRunBold, Document.wf]
      exact all_listModify _ _ (fun b2 => wfb_modifyRun b2 _ _) _ _
        (by simpa [Document.wf] using h)
  | setRunItalic b i v =>
      simp only [applyOp, Document.setRunItalic, Document.wf]
      exact all_listModify _ _ (fun b2 => wfb_modifyRun b2 _ _) _ _
        (by simpa [Document.wf] using h)
  | setRunColor b i v =>
      simp only [applyOp, Document.setRunColor, Document.wf]
      exact all_listModify _ _ (fun b2 => wfb_modifyRun b2 _ _) _ _
        (by simpa [Document.wf] using h)

theorem foldl_applyOp_wf (ops : List Op) : ∀ (d : Document), d.wf = true →
    (ops.foldl applyOp d).wf = true := by
  induction ops with
  | nil => intro d h; simpa using h
  | cons op ops ih => intro d h; exact ih _ (wf_applyOp d op h)

theorem buildDoc_wf (ops : List Op) : (buildDoc ops).wf = true :=
  foldl_applyOp_wf ops Document.empty rfl

theorem listModify_get? (f : α → α) (i : Nat) (l : List α) :
    (listModify f i l).get? i = (l.get? i).map f := by
  induction l generalizing i with
  | nil => simp [listModify]
  | cons x xs ih =>
      cases i with
      | zero => simp [listModify]
      | succ n => simpa [listModify] using ih n

theorem listModify_append_length (f : α → α) (l : List α) (x : α) :
    listModify f l.length (l ++ [x]) = l ++ [f x] := by
  induction l with
  | nil => rfl
  | cons y ys ih => simpa [listModify] using ih

theorem runs_appendRun (b : Block) (r : Run) : (b.appendRun r).runs = b.runs ++ [r] := by
  cases b <;> rfl

theorem runs_modifyRun (b : Block) (i : Nat) (f : Run → Run) :
    (b.modifyRun i f).runs = listModify f i b.runs := by
  cases b <;> rfl

theorem get?_append_length (l : List α) (x : α) : (l ++ [x]).get? l.length = some x := by
  induction l with
  | nil => rfl
  | cons y ys ih => simpa using ih

/-! ## The claims -/

/-- C1: loading the package written for any Document built via the mutation
operations yields a Document structurally equal to it — same block order
and variants, same run text and formatting, same core properties (the
model keeps timestamps at the serialized precision, so no further
normalization applies). -/
theorem c1_roundtrip (ops : List Op) :
    load (save (buildDoc ops)) = Except.ok (buildDoc ops) :=
  load_save (buildDoc ops) (buildDoc_wf ops)

/-- C2: the end-to-end scenario — one level-1 heading, one paragraph with a
bold run and a plain run — saves and reloads to a Document with exactly two
blocks whose second block has exactly two runs, bold exactly on the first. -/
theorem c2_endToEnd :
    (load (save scenarioDoc)).map (fun d =>
      (d.blocks.length,
       (d.blocks.get? 1).map (fun b => b.runs.length),
       (d.blocks.get? 1).map (fun b => b.runs.map Run.bold)))
    = Except.ok (2, some 2, some [true, false]) := by
  rfl

/-- C3: addHeading fails with InvalidArgument exactly for a level outside
the interval from 1 to 9, succeeds by appending the heading for a level
inside it, and a failing call leaves the document unchanged. -/
theorem c3_heading_level_bound (d : Document) (text : String) (level : Int) :
    (d.addHeading text level = Except.error DocxError.invalidArgument
        ↔ (level < 1 ∨ 9 < level))
    ∧ ((1 ≤ level ∧ level ≤ 9) →
        d.addHeading text level = Except.ok
          { d with blocks := d.blocks ++ [Block.heading level.toNat [plainRun text]] })
    ∧ ((level < 1 ∨ 9 < level) → applyOp d (Op.addHeading text level) = d) := by
  by_cases hc : level < 1 ∨ 9 < level
  · refine ⟨?_, ?_, ?_⟩
    · simp [Document.addHeading, hc]
    · intro h
      exfalso
      rcases hc with hc | hc <;> omega
    · intro _
      simp [applyOp, Document.addHeading, hc]
  · refine ⟨?_, ?_, ?_⟩
    · simp [Document.addHeading, hc]
    · intro h
      simp [Document.addHeading, hc]
    · intro h
      exact absurd h hc

/-- Witness for C3 at levels 0, 10 and 1 on the empty document. -/
theorem c3_heading_level_bound_witness :
    Document.empty.addHeading "Intro" 0 = Except.error DocxError.invalidArgument
    ∧ Document.empty.addHeading "Intro" 10 = Except.error DocxError.invalidArgument
    ∧ Document.empty.addHeading "Intro" 1
        = Except.ok { Document.empty with blocks := [Block.heading 1 [plainRun "Intro"]] }
    ∧ applyOp Document.empty (Op.addHeading "Intro" 10) = Document.empty := by
  refine ⟨?_, ?_, ?_, ?_⟩
  · exact (c3_heading_level_bound Document.empty "Intro" 0).1.mpr (by decide)
  · exact (c3_heading_level_bound Document.empty "Intro" 10).1.mpr (by decide)
  · exact (c3_heading_level_bound Document.empty "Intro" 1).2.1 (by decide)
  · exact (c3_heading_level_bound Document.empty "Intro" 10).2.2 (by decide)

/-- C4: a run serializes with a formatting child exactly for each flag that
is true or set — no run properties element at all when nothing is set, and
the bold, italic and color children present independently and exactly when
their flag is on. -/
theorem c4_sparse_attributes (r : Run) :
    (findChild "w:rPr" (Xml.childrenOf (writeRun r)) = none ↔
      (r.bold = false ∧ r.italic = false ∧ r.color = none))
    ∧ ((findChild "w:b" (runPropChildren r)).isSome = r.bold)
    ∧ ((findChild "w:i" (runPropChildren r)).isSome = r.italic)
    ∧ ((findChild "w:color" (runPropChildren r)).isSome = r.color.isSome) := by
  obtain ⟨tx, b, i, co⟩ := r
  cases b <;> cases i <;> rcases co with _ | v <;>
    simp [writeRun, Xml.childrenOf, runPropElems, runPropChildren, colorChildren,
      findChild, Xml.tagIs, List.find?, textAttrs]

/-- C5: the Package Writer is deterministic — two writes of equal Documents
with the same fixed timestamp are byte-identical archives, with the stable
entry ordering and fixed compression settings. -/
theorem c5_deterministic_archive (d d2 : Document) (t : Nat) (h : d = d2) :
    writeArchive d t = writeArchive d2 t
    ∧ (writeArchive d t).map ZipEntry.name
        = ["[Content_Types].xml", "_rels/.rels", "word/document.xml",
           "word/_rels/document.xml.rels", "docProps/core.xml"]
    ∧ ((writeArchive d t).all fun e => e.compressionMethod == "deflate") = true
    ∧ ((writeArchive d t).all fun e => e.mtime == t) = true := by
  subst h
  refine ⟨rfl, ?_, ?_, ?_⟩ <;> simp [writeArchive, save]

/-- Witness for C5 on the empty document at timestamp 0. -/
theorem c5_deterministic_archive_witness :
    writeArchive Document.empty 0 = writeArchive Document.empty 0
    ∧ (writeArchive Document.empty 0).map ZipEntry.name
        = ["[Content_Types].xml", "_rels/.rels", "word/document.xml",
           "word/_rels/document.xml.rels", "docProps/core.xml"]
    ∧ ((writeArchive Document.empty 0).all fun e => e.compressionMethod == "deflate") = true
    ∧ ((writeArchive Document.empty 0).all fun e => e.mtime == 0) = true :=
  c5_deterministic_archive Document.empty Document.empty 0 rfl

/-- C6: escaping rewrites every occurrence of the five reserved characters
into entities (no reserved character other than the entity-opening
ampersand survives raw), unescaping inverts it on every string, and the
run text with an angle bracket round-trips to the identical string. -/
theorem c6_escaping (s : String) :
    unescapeXml (escapeXml s) = s
    ∧ ((escapeXml s).data.all
        (fun c => !(c == '<') && !(c == '>') && !(c == '"') && !(c == '\''))) = true
    ∧ escapeXml "(p < 0.001)" = "(p &lt; 0.001)"
    ∧ unescapeXml (escapeXml "(p < 0.001)") = "(p < 0.001)" := by
  refine ⟨?_, escape_no_raw s.data, rfl, ?_⟩
  · show String.mk (unescapeList (escapeList s.data)) = s
    rw [unescape_escape]
  · show String.mk (unescapeList (escapeList "(p < 0.001)".data)) = "(p < 0.001)"
    rw [unescape_escape]

/-- C7: the writer emits the explicit preserve marker exactly when the run
text has significant surrounding whitespace, every run survives the
write-then-parse round trip, and in particular a run with two leading
spaces keeps them intact. -/
theorem c7_preserve_marker (r : Run) :
    (textAttrs r.text = [("xml:space", "preserve")] ↔ needsPreserve r.text = true)
    ∧ parseRun (writeRun r) = Except.ok r
    ∧ needsPreserve "  leading" = true
    ∧ parseRun (writeRun (plainRun "  leading")) = Except.ok (plainRun "  leading") := by
  refine ⟨?_, parseRun_writeRun r, rfl, parseRun_writeRun (plainRun "  leading")⟩
  by_cases h : needsPreserve r.text = true <;> simp [textAttrs, h]

/-- C8: each unset core property serializes as an omitted element, not an
empty one — the core-properties part contains a title or creator element
exactly when the corresponding field is set, and no creator element at all
when the author is unset. -/
theorem c8_metadata_omission (cp : CoreProperties) :
    (countTag (Xml.childrenOf (writeCoreXml cp)) "dc:creator"
        = if cp.author.isSome then 1 else 0)
    ∧ (countTag (Xml.childrenOf (writeCoreXml cp)) "dc:title"
        = if cp.title.isSome then 1 else 0)
    ∧ ((findChild "dc:creator" (Xml.childrenOf (writeCoreXml cp))).isSome = cp.author.isSome)
    ∧ ((findChild "dc:title" (Xml.childrenOf (writeCoreXml cp))).isSome = cp.title.isSome) := by
  obtain ⟨t, a, c, m⟩ := cp
  rcases t with _ | tv <;> rcases a with _ | av <;> rcases c with _ | cv <;>
    rcases m with _ | mv <;>
      simp [writeCoreXml, Xml.childrenOf, optionElem, countTag, findChild,
        Xml.tagIs, List.find?, List.filter]

/-- C9: the text-argument form of add_paragraph appends a Paragraph whose
run sequence is exactly one unformatted run carrying the argument, so the
full text content of the block equals the argument; core properties are
untouched. -/
theorem c9_paragraph_text_form (d : Document) (s : String) :
    (d.addParagraphText s).blocks = d.blocks ++ [Block.paragraph none [plainRun s]]
    ∧ (d.addParagraphText s).coreProperties = d.coreProperties
    ∧ plainRun s = { text := s, bold := false, italic := false, color := none }
    ∧ Block.fullText (Block.paragraph none [plainRun s]) = s := by
  refine ⟨?_, rfl, rfl, ?_⟩
  · show listModify (fun b => b.appendRun (plainRun s)) d.blocks.length
        (d.blocks ++ [Block.paragraph none []]) = _
    rw [listModify_append_length]
    rfl
  · show ("" ++ s) = s
    exact rfl

/-- C10: the reference appendRun returns designates the stored run, so
setting bold and italic through it after appending updates the run in the
document, and in the Results-section program of the example script the
middle run carries both flags in the final state. -/
theorem c10_run_reference (d : Document) (bIdx : Nat) (r : Run)
    (hb : bIdx < d.blocks.length) :
    runAt (((d.appendRun bIdx r).1.setRunBold bIdx (d.appendRun bIdx r).2 true).setRunItalic
        bIdx (d.appendRun bIdx r).2 true) bIdx (d.appendRun bIdx r).2
      = some { r with bold := true, italic := true }
    ∧ (resultsSectionNew.blocks.get? 1).map Block.runs
      = some [plainRun "The primary outcome measure showed significant improvement ",
              { text := "(p < 0.001)", bold := true, italic := true, color := none },
              plainRun " in the treatment group compared to placebo."] := by
  constructor
  · cases hg : d.blocks.get? bIdx with
    | none =>
        exfalso
        rw [List.get?_eq_none] at hg
        omega
    | some b =>
        have hg2 : d.blocks[bIdx]? = some b := by
          rw [← List.get?_eq_getElem?]
          exact hg
        have hr2 : (d.appendRun bIdx r).2 = b.runs.length := by
          simp [Document.appendRun, hg2]
        have hblocks :
            (((d.appendRun bIdx r).1.setRunBold bIdx (d.appendRun bIdx r).2
                true).setRunItalic bIdx (d.appendRun bIdx r).2 true).blocks
            = listModify (fun b2 => b2.modifyRun (d.appendRun bIdx r).2
                  (fun r2 => { r2 with italic := true })) bIdx
                (listModify (fun b2 => b2.modifyRun (d.appendRun bIdx r).2
                    (fun r2 => { r2 with bold := true })) bIdx
                  (listModify (fun b2 => b2.appendRun r) bIdx d.blocks)) := rfl
        rw [runAt, hblocks, listModify_get?, listModify_get?, listModify_get?, hg]
        simp only [Option.map_some', Option.some_bind]
        rw [runs_modifyRun, runs_modifyRun, runs_appendRun, hr2]
        rw [listModify_get?, listModify_get?, get?_append_length]
        rfl
  · rfl

/-- Witness for C10 on a one-paragraph document. -/
theorem c10_run_reference_witness :
    runAt (((Document.empty.addParagraph.1.appendRun 0 (plainRun "x")).1.setRunBold 0
        (Document.empty.addParagraph.1.appendRun 0 (plainRun "x")).2 true).setRunItalic
        0 (Document.empty.addParagraph.1.appendRun 0 (plainRun "x")).2 true) 0
        (Document.empty.addParagraph.1.appendRun 0 (plainRun "x")).2
      = some { plainRun "x" with bold := true, italic := true }
    ∧ (resultsSectionNew.blocks.get? 1).map Block.runs
      = some [plainRun "The primary outcome measure showed significant improvement ",
              { text := "(p < 0.001)", bold := true, italic := true, color := none },
              plainRun " in the treatment group compared to placebo."] :=
  c10_run_reference Document.empty.addParagraph.1 0 (plainRun "x") (by decide)

end DocxReview
